import Mathlib

/-!
Shallow embedding of the toast queue controller implemented in
`packages/core/src/components/toast/overlayToaster.tsx` (class `OverlayToaster`).

The controller owns two ordered collections of toast records:
  * `state.toasts`   — the visible toasts, newest-first (field `toasts` below);
  * `queue.toasts`   — the pending queue, oldest-first (FIFO).
Callbacks (`onDismiss`) are modelled by an identifier (`Option Nat`, `none`
when the caller supplied no callback); every operation returns, next to its
state update, the list of callback invocations `(callbackId, timeoutExpired)`
it performed, in order.

The scheduler's timer is modelled by the `armed` flag: `armed = true` exactly
when a scheduled, not-yet-fired timeout exists (i.e. the `queue.cancel` handle
refers to a live timer).  A timer firing is only possible when `armed`
holds, which the trace semantics (`step`) enforces.
-/

namespace OverlayToaster

/-- The content fields of a toast request (`ToastProps`): the message and the
optional dismissal callback (identified by a numeric id). -/
structure ToastProps where
  message : String
  onDismiss : Option Nat
deriving DecidableEq, Repr

/-- Record type `ToastOptions`: a toast request together with its resolved `key`
(`createToastOptions` produces `{ ...props, key }`). -/
structure ToastOptions where
  message : String
  onDismiss : Option Nat
  key : String
deriving DecidableEq, Repr

/-- One dismissal-callback invocation: the callback id and the
`timeoutExpired` flag it was invoked with. -/
abbrev DismissEvent := Nat × Bool

/-- The controller configuration relevant to the queue logic:
`maxToasts?: number` (absent = no limit).  `validateProps` rejects a
configured value below 1. -/
structure OverlayToasterProps where
  maxToasts : Option Nat
deriving DecidableEq, Repr

/-- State record `OverlayToasterQueueState`: `isRunning`, the pending toasts, and the
timer handle (`cancel`), modelled as the flag `armed` — whether a scheduled,
unfired timeout currently exists. -/
structure QueueState where
  armed : Bool
  isRunning : Bool
  toasts : List ToastOptions
deriving DecidableEq, Repr

/-- Full controller state: visible toasts (newest-first), queue state and the
auto-incrementing id counter `toastId`. -/
structure ToasterState where
  toasts : List ToastOptions
  queue : QueueState
  toastId : Nat
deriving DecidableEq, Repr

/-- Initial state: no toasts, queue idle, counter 0. -/
def initialState : ToasterState :=
  { toasts := [], queue := { armed := false, isRunning := false, toasts := [] }, toastId := 0 }

/-- The auto-generated key for counter value `n`: the template literal
`toast-${n}`. -/
def autoKey (n : Nat) : String := "toast-" ++ Nat.repr n

/-- Source method `createToastOptions(props, key = toast-${this.toastId++})`: clones the
props and adds the resolved key; the counter is consumed only when no caller
key was supplied (default-parameter semantics). -/
def createToastOptions (props : ToastProps) (key : Option String) (toastId : Nat) :
    ToastOptions × Nat :=
  match key with
  | some k => ({ message := props.message, onDismiss := props.onDismiss, key := k }, toastId)
  | none =>
      ({ message := props.message, onDismiss := props.onDismiss, key := autoKey toastId },
        toastId + 1)

/-- Source method `dismiss(key, timeoutExpired = false)`: filters the visible toasts,
invoking `onDismiss?.(timeoutExpired)` on every record whose key matches.
The pending queue is untouched. -/
def dismiss (s : ToasterState) (key : String) (timeoutExpired : Bool) :
    ToasterState × List DismissEvent :=
  ({ s with toasts := s.toasts.filter (fun t => !(t.key == key)) },
    s.toasts.filterMap (fun t =>
      if t.key == key then t.onDismiss.map (fun cb => (cb, timeoutExpired)) else none))

/-- Source method `dismissIfAtLimit`: when the visible count equals `maxToasts`, dismiss the
oldest visible toast — the last element of the newest-first list
(`this.state.toasts[this.state.toasts.length - 1].key`). The `getLast? = none`
branch is unreachable under the caller's truthiness guard (`maxToasts ≥ 1`). -/
def dismissIfAtLimit (props : OverlayToasterProps) (s : ToasterState) :
    ToasterState × List DismissEvent :=
  if props.maxToasts = some s.toasts.length then
    match s.toasts.getLast? with
    | some t => dismiss s t.key false
    | none => (s, [])
  else (s, [])

/-- Source method `immediatelyShowToast(options)`: `if (this.props.maxToasts)` (truthy:
present and nonzero) check the limit, then prepend the new record to the
visible list. -/
def immediatelyShowToast (props : OverlayToasterProps) (s : ToasterState)
    (options : ToastOptions) : ToasterState × List DismissEvent :=
  let r :=
    match props.maxToasts with
    | some m => if m ≠ 0 then dismissIfAtLimit props s else (s, [])
    | none => (s, [])
  ({ r.1 with toasts := options :: r.1.toasts }, r.2)

/-- Source method `startQueueTimeout`: mark the queue running and schedule the release
timeout (arming the timer). -/
def startQueueTimeout (s : ToasterState) : ToasterState :=
  { s with queue := { s.queue with armed := true, isRunning := true } }

/-- Source method `handleQueueTimeout`: the scheduled timeout fires (spending the timer
handle); `shift()` the oldest pending toast — if there is one, show it and
re-arm, otherwise mark the queue idle. -/
def handleQueueTimeout (props : OverlayToasterProps) (s : ToasterState) :
    ToasterState × List DismissEvent :=
  let s0 : ToasterState := { s with queue := { s.queue with armed := false } }
  match s0.queue.toasts with
  | nextToast :: rest =>
      let s1 : ToasterState := { s0 with queue := { s0.queue with toasts := rest } }
      let r := immediatelyShowToast props s1 nextToast
      (startQueueTimeout r.1, r.2)
  | [] => ({ s0 with queue := { s0.queue with isRunning := false } }, [])

/-- Source method `maybeUpdateExistingToast(options, key)`: nothing to do without a caller
key; otherwise replace in place (`map`) in the pending queue, else in the
visible list, returning whether a replacement happened. -/
def maybeUpdateExistingToast (s : ToasterState) (options : ToastOptions)
    (key : Option String) : Bool × ToasterState :=
  match key with
  | none => (false, s)
  | some k =>
      if s.queue.toasts.any (fun t => t.key == k) then
        (true, { s with queue := { s.queue with
          toasts := s.queue.toasts.map (fun t => if t.key == k then options else t) } })
      else if s.toasts.any (fun t => t.key == k) then
        (true, { s with toasts := s.toasts.map (fun t => if t.key == k then options else t) })
      else (false, s)

/-- Source method `show(props, key?)`: resolve the key, try an in-place update; otherwise
queue the toast when the scheduler is running, else show it immediately and
start the release timer.  Returns the new state, the callback invocations and
the resolved key (`show` is named `show'` because `show` is reserved). -/
def show' (props : OverlayToasterProps) (s : ToasterState) (toastProps : ToastProps)
    (key : Option String) : ToasterState × List DismissEvent × String :=
  let c := createToastOptions toastProps key s.toastId
  let options := c.1
  let s0 : ToasterState := { s with toastId := c.2 }
  let u := maybeUpdateExistingToast s0 options key
  if u.1 then (u.2, [], options.key)
  else if u.2.queue.isRunning then
    ({ u.2 with queue := { u.2.queue with toasts := u.2.queue.toasts ++ [options] } },
      [], options.key)
  else
    let r := immediatelyShowToast props u.2 options
    (startQueueTimeout r.1, r.2, options.key)

/-- Source method `clear()`: cancel the outstanding timer (disarming it), reset the queue,
invoke `onDismiss?.(false)` on every visible toast, and empty the visible
list. -/
def clear (s : ToasterState) : ToasterState × List DismissEvent :=
  ({ toasts := [],
     queue := { armed := false, isRunning := false, toasts := [] },
     toastId := s.toastId },
    s.toasts.filterMap (fun t => t.onDismiss.map (fun cb => (cb, false))))

/-- Source method `getToasts()`: the current visible collection (newest-first). -/
def getToasts (s : ToasterState) : List ToastOptions := s.toasts

/-- The externally triggerable transitions of one controller instance: the
three public mutators plus the scheduler timeout firing. -/
inductive Op where
  | show (toastProps : ToastProps) (key : Option String)
  | dismiss (key : String) (timeoutExpired : Bool)
  | clear
  | timerFire
deriving DecidableEq, Repr

/-- One transition.  A `timerFire` only has an effect when a scheduled,
unfired timeout exists (`armed`); a cancelled or already-fired timer cannot
fire. -/
def step (props : OverlayToasterProps) (s : ToasterState) : Op → ToasterState × List DismissEvent
  | .show tp key => let r := show' props s tp key; (r.1, r.2.1)
  | .dismiss k b => dismiss s k b
  | .clear => clear s
  | .timerFire => if s.queue.armed then handleQueueTimeout props s else (s, [])

/-- Run a sequence of operations from a state (final state only). -/
def run (props : OverlayToasterProps) (s : ToasterState) (ops : List Op) : ToasterState :=
  ops.foldl (fun s op => (step props s op).1) s

/-- All identifiers currently held by the controller: the pending keys followed
by the visible keys. -/
def stateKeys (s : ToasterState) : List String :=
  s.queue.toasts.map (fun t => t.key) ++ s.toasts.map (fun t => t.key)

/-- Identifier uniqueness: every identifier appears in at most one of the two
collections, and at most once within each — i.e. the combined key list has no
duplicate. -/
def KeysUnique (s : ToasterState) : Prop := (stateKeys s).Nodup

/-- Auxiliary invariant: every auto-generated identifier present in the state
was allocated by a counter value below the current one. -/
def AutoKeysBounded (s : ToasterState) : Prop :=
  ∀ n, autoKey n ∈ stateKeys s → n < s.toastId

/-- A sequence of operations whose caller-supplied keys never collide with the
auto-generated namespace `toast-${n}`. -/
def CallerKeysSafe (ops : List Op) : Prop :=
  ∀ tp k, Op.show tp (some k) ∈ ops → ∀ n, k ≠ autoKey n

/-- Sample records and states used by the concrete witnesses below. -/
def sampleA : ToastOptions := { message := "A", onDismiss := some 0, key := "toast-0" }

def sampleB : ToastOptions := { message := "B", onDismiss := some 1, key := "k" }

/-- A state with `sampleA` visible and `sampleB` pending, scheduler running. -/
def sampleState : ToasterState :=
  { toasts := [sampleA], queue := { armed := true, isRunning := true, toasts := [sampleB] },
    toastId := 2 }

/-! ### Basic unfolding lemmas for `run` -/

theorem run_nil (props : OverlayToasterProps) (s : ToasterState) : run props s [] = s := rfl

theorem run_cons (props : OverlayToasterProps) (s : ToasterState) (op : Op) (ops : List Op) :
    run props s (op :: ops) = run props (step props s op).1 ops := rfl

theorem run_preserves (props : OverlayToasterProps) (P : ToasterState → Prop)
    (hstep : ∀ s op, P s → P (step props s op).1) :
    ∀ ops s, P s → P (run props s ops) := by
  intro ops
  induction ops with
  | nil => intro s h; exact h
  | cons op ops ih => intro s h; exact ih _ (hstep s op h)

/-! ### Shape lemmas about the individual operations -/

/-- The operation `dismiss` only touches the visible list. -/
theorem dismiss_queue_toastId (s : ToasterState) (k : String) (b : Bool) :
    (dismiss s k b).1.queue = s.queue ∧ (dismiss s k b).1.toastId = s.toastId :=
  ⟨rfl, rfl⟩

/-- The operation `dismissIfAtLimit` only touches the visible list, and only ever shrinks it
(the result is a sublist of the input). -/
theorem dismissIfAtLimit_shape (props : OverlayToasterProps) (s : ToasterState) :
    (dismissIfAtLimit props s).1.queue = s.queue ∧
    (dismissIfAtLimit props s).1.toastId = s.toastId ∧
    (dismissIfAtLimit props s).1.toasts.Sublist s.toasts := by
  unfold dismissIfAtLimit
  split
  · cases hl : s.toasts.getLast? with
    | none => exact ⟨rfl, rfl, List.Sublist.refl _⟩
    | some t => exact ⟨rfl, rfl, List.filter_sublist _⟩
  · exact ⟨rfl, rfl, List.Sublist.refl _⟩

/-- The operation `immediatelyShowToast` prepends the new record to a sublist of the old
visible list and leaves the queue and the counter alone. -/
theorem immediatelyShowToast_shape (props : OverlayToasterProps) (s : ToasterState)
    (o : ToastOptions) :
    (immediatelyShowToast props s o).1.queue = s.queue ∧
    (immediatelyShowToast props s o).1.toastId = s.toastId ∧
    ∃ l, (immediatelyShowToast props s o).1.toasts = o :: l ∧ l.Sublist s.toasts := by
  unfold immediatelyShowToast
  cases hm : props.maxToasts with
  | none => exact ⟨rfl, rfl, s.toasts, rfl, List.Sublist.refl _⟩
  | some m =>
    by_cases h0 : m ≠ 0
    · have hs := dismissIfAtLimit_shape props s
      dsimp only
      rw [if_pos h0]
      exact ⟨hs.1, hs.2.1, (dismissIfAtLimit props s).1.toasts, rfl, hs.2.2⟩
    · dsimp only
      rw [if_neg h0]
      exact ⟨rfl, rfl, s.toasts, rfl, List.Sublist.refl _⟩

/-- A timer firing with a non-empty pending queue releases exactly the head
(the oldest pending record), prepends it to the visible list, and re-arms the
scheduler. -/
theorem handleQueueTimeout_head (props : OverlayToasterProps) (s : ToasterState)
    (t : ToastOptions) (rest : List ToastOptions) (hq : s.queue.toasts = t :: rest) :
    (handleQueueTimeout props s).1.toasts.head? = some t ∧
    (handleQueueTimeout props s).1.queue.toasts = rest ∧
    (handleQueueTimeout props s).1.queue.armed = true ∧
    (handleQueueTimeout props s).1.queue.isRunning = true ∧
    (handleQueueTimeout props s).1.toastId = s.toastId ∧
    ∃ l, (handleQueueTimeout props s).1.toasts = t :: l ∧ l.Sublist s.toasts := by
  obtain ⟨vis, ⟨armd, running, pend⟩, tid⟩ := s
  simp only at hq
  subst hq
  unfold handleQueueTimeout
  dsimp only
  have hs := immediatelyShowToast_shape props ⟨vis, ⟨false, running, rest⟩, tid⟩ t
  obtain ⟨l, hl, hsub⟩ := hs.2.2
  have hq1 := hs.1
  have hid := hs.2.1
  refine ⟨?_, ?_, rfl, rfl, ?_, l, ?_, hsub⟩
  · simp only [startQueueTimeout, hl, List.head?]
  · simp only [startQueueTimeout, hq1]
  · simp only [startQueueTimeout, hid]
  · simp only [startQueueTimeout, hl]

/-! ### Unfolding lemmas for `show'`, one per control path -/

/-- Calling `show` with a key matching a pending record replaces it in place in the
pending queue and does nothing else. -/
theorem show'_update_pending (props : OverlayToasterProps) (s : ToasterState)
    (tp : ToastProps) (k : String)
    (hpend : s.queue.toasts.any (fun t => t.key == k) = true) :
    show' props s tp (some k) =
      ({ s with queue := { s.queue with toasts := s.queue.toasts.map (fun t => if t.key == k then ⟨tp.message, tp.onDismiss, k⟩ else t) } },
        [], k) := by
  unfold show' createToastOptions maybeUpdateExistingToast
  dsimp only
  rw [hpend]
  rfl

/-- Calling `show` with a key matching a visible (but no pending) record replaces it
in place in the visible list and does nothing else. -/
theorem show'_update_visible (props : OverlayToasterProps) (s : ToasterState)
    (tp : ToastProps) (k : String)
    (hpend : s.queue.toasts.any (fun t => t.key == k) = false)
    (hvis : s.toasts.any (fun t => t.key == k) = true) :
    show' props s tp (some k) =
      ({ s with toasts := s.toasts.map (fun t => if t.key == k then ⟨tp.message, tp.onDismiss, k⟩ else t) },
        [], k) := by
  unfold show' createToastOptions maybeUpdateExistingToast
  dsimp only
  rw [hpend, hvis]
  rfl

/-- Calling `show` for a genuinely new keyed toast while the scheduler is running
appends it to the back of the pending queue. -/
theorem show'_new_keyed_running (props : OverlayToasterProps) (s : ToasterState)
    (tp : ToastProps) (k : String)
    (hpend : s.queue.toasts.any (fun t => t.key == k) = false)
    (hvis : s.toasts.any (fun t => t.key == k) = false)
    (hrun : s.queue.isRunning = true) :
    show' props s tp (some k) =
      ({ s with queue := { s.queue with
          toasts := s.queue.toasts ++ [⟨tp.message, tp.onDismiss, k⟩] } },
        [], k) := by
  unfold show' createToastOptions maybeUpdateExistingToast
  dsimp only
  rw [hpend, hvis]
  simp [hrun]

/-- Calling `show` for a genuinely new keyed toast while the scheduler is idle shows it
immediately and arms the release timer. -/
theorem show'_new_keyed_idle (props : OverlayToasterProps) (s : ToasterState)
    (tp : ToastProps) (k : String)
    (hpend : s.queue.toasts.any (fun t => t.key == k) = false)
    (hvis : s.toasts.any (fun t => t.key == k) = false)
    (hrun : s.queue.isRunning = false) :
    show' props s tp (some k) =
      (startQueueTimeout (immediatelyShowToast props s ⟨tp.message, tp.onDismiss, k⟩).1,
        (immediatelyShowToast props s ⟨tp.message, tp.onDismiss, k⟩).2, k) := by
  unfold show' createToastOptions maybeUpdateExistingToast
  dsimp only
  rw [hpend, hvis]
  simp [hrun]

/-- Calling `show` for an unkeyed toast while the scheduler is running allocates the
next auto key and appends the record to the back of the pending queue. -/
theorem show'_unkeyed_running (props : OverlayToasterProps) (s : ToasterState)
    (tp : ToastProps) (hrun : s.queue.isRunning = true) :
    show' props s tp none =
      ({ s with
          queue := { s.queue with
            toasts := s.queue.toasts ++ [⟨tp.message, tp.onDismiss, autoKey s.toastId⟩] },
          toastId := s.toastId + 1 },
        [], autoKey s.toastId) := by
  unfold show' createToastOptions maybeUpdateExistingToast
  simp [hrun]

/-- Calling `show` for an unkeyed toast while the scheduler is idle allocates the next
auto key, shows the record immediately and arms the release timer. -/
theorem show'_unkeyed_idle (props : OverlayToasterProps) (s : ToasterState)
    (tp : ToastProps) (hrun : s.queue.isRunning = false) :
    show' props s tp none =
      (startQueueTimeout (immediatelyShowToast props { s with toastId := s.toastId + 1 }
          ⟨tp.message, tp.onDismiss, autoKey s.toastId⟩).1,
        (immediatelyShowToast props { s with toastId := s.toastId + 1 }
          ⟨tp.message, tp.onDismiss, autoKey s.toastId⟩).2,
        autoKey s.toastId) := by
  unfold show' createToastOptions maybeUpdateExistingToast
  simp [hrun]

/-! ### C5: dismiss of an absent identifier is a no-op -/

/-- C5: for every identifier not present in the visible collection,
`dismiss identifier` is a no-op: no dismissal callback is invoked, no
exception is thrown (the operation is total), and the state — in particular
the visible collection — is unchanged. -/
theorem c5_dismiss_absent_is_noop (s : ToasterState) (k : String) (b : Bool)
    (h : ∀ t ∈ s.toasts, t.key ≠ k) :
    dismiss s k b = (s, []) := by
  unfold dismiss
  have h1 : s.toasts.filter (fun t => !(t.key == k)) = s.toasts := by
    apply List.filter_eq_self.mpr
    intro a ha
    simp [h a ha]
  have h2 : s.toasts.filterMap (fun t =>
      if t.key == k then t.onDismiss.map (fun cb => (cb, b)) else none) = [] := by
    apply List.filterMap_eq_nil_iff.mpr
    intro a ha
    simp [h a ha]
  rw [h1, h2]

/-- Witness for C5 at a concrete state. -/
theorem c5_witness :
    (∀ t ∈ (ToasterState.mk [⟨"A", some 0, "toast-0"⟩] ⟨true, true, []⟩ 1).toasts,
        t.key ≠ "zzz") ∧
    dismiss (ToasterState.mk [⟨"A", some 0, "toast-0"⟩] ⟨true, true, []⟩ 1) "zzz" false =
      (ToasterState.mk [⟨"A", some 0, "toast-0"⟩] ⟨true, true, []⟩ 1, []) :=
  ⟨by decide, c5_dismiss_absent_is_noop _ "zzz" false (by decide)⟩

/-! ### C6: clear empties everything, fires every visible callback once,
and cancels the timer -/

/-- C6: in every controller state, `clear` leaves both the pending and the
visible collections empty, invokes the dismissal callback of every
currently-visible record exactly once — in order, with the timeout flag
`false` — and cancels the armed scheduler timer, so that a stale timer firing
after the `clear` is a no-op and cannot revive any toast. -/
theorem c6_clear_spec (props : OverlayToasterProps) (s : ToasterState) :
    (clear s).1.toasts = [] ∧
    (clear s).1.queue.toasts = [] ∧
    (clear s).1.queue.isRunning = false ∧
    (clear s).1.queue.armed = false ∧
    (clear s).2 = s.toasts.filterMap (fun t => t.onDismiss.map (fun cb => (cb, false))) ∧
    step props (clear s).1 .timerFire = ((clear s).1, []) := by
  refine ⟨rfl, rfl, rfl, rfl, rfl, ?_⟩
  simp [step, clear]

/-! ### C7: clear is idempotent -/

/-- C7: `clear` is idempotent — calling it a second time succeeds (it is a
total function), returns the very same state, and invokes no dismissal
callback at all. -/
theorem c7_clear_idempotent (s : ToasterState) :
    clear (clear s).1 = ((clear s).1, []) := by
  simp [clear]

/-! ### C4: what dismiss removes (corrected) -/

/-- C4 counterexample: `dismiss` does *not* remove a record from the pending
queue, and such a record is later displayed.  Concretely: show an unkeyed
toast (visible immediately, scheduler running), then show toast `"k"` (it is
queued as pending), then `dismiss "k"`: the pending queue still contains
`"k"` afterwards, and after the release timer fires the `"k"` toast becomes
visible — contradicting "removes the record from whichever collection holds
it" and "it is never later displayed". -/
theorem c4_counterexample :
    ((run ⟨none⟩ initialState
        [.show ⟨"A", some 0⟩ none, .show ⟨"B", some 1⟩ (some "k")]).queue.toasts.map
          (fun t => t.key) = ["k"]) ∧
    ((run ⟨none⟩ initialState
        [.show ⟨"A", some 0⟩ none, .show ⟨"B", some 1⟩ (some "k"),
         .dismiss "k" false]).queue.toasts.map (fun t => t.key) = ["k"]) ∧
    ((run ⟨none⟩ initialState
        [.show ⟨"A", some 0⟩ none, .show ⟨"B", some 1⟩ (some "k"), .dismiss "k" false,
         .timerFire]).toasts.map (fun t => t.key) = ["k", "toast-0"]) := by
  refine ⟨rfl, rfl, rfl⟩

/-- C4 amended: `dismiss identifier` removes matching records from the
*visible* collection only; the pending queue (and the id counter) is
untouched, so a pending record whose identifier is dismissed stays queued and
is still displayed when the release timer next fires. -/
theorem c4_dismiss_only_affects_visible (props : OverlayToasterProps) (s : ToasterState)
    (k : String) (b : Bool) (t : ToastOptions) (rest : List ToastOptions)
    (hq : s.queue.toasts = t :: rest) :
    (dismiss s k b).1.toasts = s.toasts.filter (fun u => !(u.key == k)) ∧
    (dismiss s k b).1.queue = s.queue ∧
    (dismiss s k b).1.toastId = s.toastId ∧
    ((dismiss s k b).1.queue.armed = true →
      ((step props (dismiss s k b).1 .timerFire).1.toasts.head? = some t)) := by
  refine ⟨rfl, rfl, rfl, ?_⟩
  intro harmed
  have hq' : (dismiss s k b).1.queue.toasts = t :: rest := hq
  simp only [step, harmed, if_true]
  exact (handleQueueTimeout_head props _ t rest hq').1

/-- In-place replacement by a record carrying the same key preserves the key
list (and hence positions and length) of a collection. -/
theorem map_key_replace (l : List ToastOptions) (o : ToastOptions) (k : String)
    (hk : o.key = k) :
    (l.map (fun t => if t.key == k then o else t)).map (fun t => t.key) =
      l.map (fun t => t.key) := by
  induction l with
  | nil => rfl
  | cons a l ih =>
      simp only [List.map_cons, ih]
      by_cases h : a.key = k
      · simp [h, hk]
      · simp [h]

/-! ### C2: admission at capacity evicts the oldest visible record -/

/-- C2: when a new toast is admitted to the visible collection while a
maximum-visible-count `m` is configured and the visible collection is at that
limit, the oldest visible record (the last element of the newest-first list)
is removed and its dismissal callback invoked with the timeout flag `false`,
and only then is the new record prepended — the final visible list is the new
record followed by the remaining (younger) records. -/
theorem c2_evicts_oldest_at_limit (props : OverlayToasterProps) (s : ToasterState)
    (options : ToastOptions) (m : Nat) (front : List ToastOptions) (oldest : ToastOptions)
    (cb : Nat)
    (hmax : props.maxToasts = some m)
    (hs : s.toasts = front ++ [oldest])
    (hlen : s.toasts.length = m)
    (hnodup : (s.toasts.map (fun t => t.key)).Nodup)
    (hcb : oldest.onDismiss = some cb) :
    immediatelyShowToast props s options =
      ({ s with toasts := options :: front }, [(cb, false)]) := by
  have hm0 : m ≠ 0 := by
    rw [hs] at hlen
    simp at hlen
    omega
  have hfr : ∀ u ∈ front, u.key ≠ oldest.key := by
    rw [hs, List.map_append] at hnodup
    intro u hu heq
    have hmem : oldest.key ∈ front.map (fun t => t.key) :=
      heq ▸ List.mem_map_of_mem (fun t => t.key) hu
    have hd := List.disjoint_of_nodup_append hnodup
    exact hd hmem (by simp)
  obtain ⟨vis, q, tid⟩ := s
  simp only at hs hlen hnodup
  subst hs
  unfold immediatelyShowToast
  rw [hmax]
  dsimp only
  rw [if_pos hm0]
  unfold dismissIfAtLimit
  rw [hmax]
  simp only [List.getLast?_concat, hlen, if_pos rfl]
  unfold dismiss
  dsimp only
  have hfilter : (front ++ [oldest]).filter (fun t => !(t.key == oldest.key)) = front := by
    rw [List.filter_append]
    have h1 : front.filter (fun t => !(t.key == oldest.key)) = front :=
      List.filter_eq_self.mpr (fun u hu => by simp [hfr u hu])
    have h2 : [oldest].filter (fun t => !(t.key == oldest.key)) = [] := by simp
    rw [h1, h2, List.append_nil]
  have hfm : (front ++ [oldest]).filterMap (fun t =>
      if t.key == oldest.key then t.onDismiss.map (fun cb => (cb, false)) else none) =
      [(cb, false)] := by
    rw [List.filterMap_append]
    have h1 : front.filterMap (fun t =>
        if t.key == oldest.key then t.onDismiss.map (fun cb => (cb, false)) else none) = [] :=
      List.filterMap_eq_nil_iff.mpr (fun u hu => by simp [hfr u hu])
    have h2 : [oldest].filterMap (fun t =>
        if t.key == oldest.key then t.onDismiss.map (fun cb => (cb, false)) else none) =
        [(cb, false)] := by simp [hcb]
    rw [h1, h2]
    rfl
  rw [hfilter, hfm]
  simp

/-- Witness for C2 at a concrete state: limit 1, one visible toast, a new one
admitted. -/
theorem c2_witness :
    (OverlayToasterProps.mk (some 1)).maxToasts = some 1 ∧
    immediatelyShowToast ⟨some 1⟩ (ToasterState.mk [sampleA] ⟨true, true, []⟩ 1) sampleB =
      ({ ToasterState.mk [sampleA] ⟨true, true, []⟩ 1 with toasts := sampleB :: [] },
        [(0, false)]) :=
  ⟨rfl, c2_evicts_oldest_at_limit ⟨some 1⟩ (ToasterState.mk [sampleA] ⟨true, true, []⟩ 1)
    sampleB 1 [] sampleA 0 rfl rfl rfl (by decide) rfl⟩

/-! ### C8: FIFO release order, newest-first visible list -/

/-- C8: with the scheduler running, a timer firing releases the oldest
pending record first (toasts become visible in submission order) and prepends
it to the visible collection (`getToasts` returns the visible records
newest-first, so the released record is its head); a genuinely new toast
shown while the scheduler runs — keyed or unkeyed — is appended at the back
of the pending queue, preserving submission order. -/
theorem c8_fifo_release_newest_first (props : OverlayToasterProps) (s : ToasterState)
    (t : ToastOptions) (rest : List ToastOptions) (tp : ToastProps) (k : String)
    (hq : s.queue.toasts = t :: rest)
    (hrun : s.queue.isRunning = true)
    (hpend : s.queue.toasts.any (fun u => u.key == k) = false)
    (hvis : s.toasts.any (fun u => u.key == k) = false) :
    (handleQueueTimeout props s).1.queue.toasts = rest ∧
    (handleQueueTimeout props s).1.toasts.head? = some t ∧
    getToasts (handleQueueTimeout props s).1 = (handleQueueTimeout props s).1.toasts ∧
    (show' props s tp (some k)).1.queue.toasts =
      s.queue.toasts ++ [⟨tp.message, tp.onDismiss, k⟩] ∧
    (show' props s tp none).1.queue.toasts =
      s.queue.toasts ++ [⟨tp.message, tp.onDismiss, autoKey s.toastId⟩] := by
  have hh := handleQueueTimeout_head props s t rest hq
  refine ⟨hh.2.1, hh.1, rfl, ?_, ?_⟩
  · rw [show'_new_keyed_running props s tp k hpend hvis hrun]
  · rw [show'_unkeyed_running props s tp hrun]

/-- Witness for C8 at a concrete state. -/
theorem c8_witness :
    sampleState.queue.toasts = sampleB :: [] ∧
    ((handleQueueTimeout ⟨none⟩ sampleState).1.queue.toasts = [] ∧
      (handleQueueTimeout ⟨none⟩ sampleState).1.toasts.head? = some sampleB ∧
      getToasts (handleQueueTimeout ⟨none⟩ sampleState).1 =
        (handleQueueTimeout ⟨none⟩ sampleState).1.toasts ∧
      (show' ⟨none⟩ sampleState ⟨"C", none⟩ (some "c")).1.queue.toasts =
        sampleState.queue.toasts ++ [⟨"C", none, "c"⟩] ∧
      (show' ⟨none⟩ sampleState ⟨"C", none⟩ none).1.queue.toasts =
        sampleState.queue.toasts ++ [⟨"C", none, autoKey sampleState.toastId⟩]) :=
  ⟨rfl, c8_fifo_release_newest_first ⟨none⟩ sampleState sampleB [] ⟨"C", none⟩ "c"
    rfl rfl (by decide) (by decide)⟩

/-! ### C10: updating an existing toast never evicts and never fires callbacks -/

/-- C10: `show` with a key matching an existing pending or visible record
invokes no dismissal callback and removes no record from either collection —
the key lists (hence lengths and positions) of both collections are unchanged
and the scheduler state is untouched, whatever the configured
maximum-visible-count and even when the visible collection is full. -/
theorem c10_update_never_evicts (props : OverlayToasterProps) (s : ToasterState)
    (tp : ToastProps) (k : String)
    (h : s.queue.toasts.any (fun t => t.key == k) = true ∨
         s.toasts.any (fun t => t.key == k) = true) :
    (show' props s tp (some k)).2.1 = [] ∧
    (show' props s tp (some k)).2.2 = k ∧
    (show' props s tp (some k)).1.toasts.map (fun t => t.key) =
      s.toasts.map (fun t => t.key) ∧
    (show' props s tp (some k)).1.queue.toasts.map (fun t => t.key) =
      s.queue.toasts.map (fun t => t.key) ∧
    (show' props s tp (some k)).1.queue.isRunning = s.queue.isRunning ∧
    (show' props s tp (some k)).1.queue.armed = s.queue.armed := by
  by_cases hp : s.queue.toasts.any (fun t => t.key == k) = true
  · rw [show'_update_pending props s tp k hp]
    exact ⟨rfl, rfl, rfl, map_key_replace _ _ _ rfl, rfl, rfl⟩
  · have hv : s.toasts.any (fun t => t.key == k) = true := by
      rcases h with h | h
      · exact absurd h hp
      · exact h
    have hp' : s.queue.toasts.any (fun t => t.key == k) = false :=
      Bool.eq_false_iff.mpr hp
    rw [show'_update_visible props s tp k hp' hv]
    exact ⟨rfl, rfl, map_key_replace _ _ _ rfl, rfl, rfl, rfl⟩

/-- Witness for C10 at a concrete state: key `"k"` is pending in
`sampleState`. -/
theorem c10_witness :
    (sampleState.queue.toasts.any (fun t => t.key == "k") = true ∨
      sampleState.toasts.any (fun t => t.key == "k") = true) ∧
    ((show' ⟨some 1⟩ sampleState ⟨"B2", some 7⟩ (some "k")).2.1 = [] ∧
      (show' ⟨some 1⟩ sampleState ⟨"B2", some 7⟩ (some "k")).2.2 = "k" ∧
      (show' ⟨some 1⟩ sampleState ⟨"B2", some 7⟩ (some "k")).1.toasts.map (fun t => t.key) =
        sampleState.toasts.map (fun t => t.key) ∧
      (show' ⟨some 1⟩ sampleState ⟨"B2", some 7⟩ (some "k")).1.queue.toasts.map
          (fun t => t.key) = sampleState.queue.toasts.map (fun t => t.key) ∧
      (show' ⟨some 1⟩ sampleState ⟨"B2", some 7⟩ (some "k")).1.queue.isRunning =
        sampleState.queue.isRunning ∧
      (show' ⟨some 1⟩ sampleState ⟨"B2", some 7⟩ (some "k")).1.queue.armed =
        sampleState.queue.armed) :=
  ⟨Or.inl (by decide),
    c10_update_never_evicts ⟨some 1⟩ sampleState ⟨"B2", some 7⟩ "k" (Or.inl (by decide))⟩

/-! ### C1: the visible collection never exceeds the configured maximum -/

/-- Filtering a list strictly shrinks it when some member fails the
predicate. -/
theorem length_filter_lt_of_mem (l : List ToastOptions) (p : ToastOptions → Bool)
    (x : ToastOptions) (hx : x ∈ l) (hpx : p x = false) :
    (l.filter p).length < l.length := by
  induction l with
  | nil => cases hx
  | cons a l ih =>
      rcases List.mem_cons.mp hx with rfl | hx'
      · rw [List.filter_cons, hpx]
        exact Nat.lt_succ_of_le (List.length_filter_le p l)
      · rw [List.filter_cons]
        cases hpa : p a
        · exact Nat.lt_succ_of_lt (ih hx')
        · simpa using Nat.succ_lt_succ (ih hx')

/-- Admitting one record keeps the visible count within a configured limit
`m ≥ 1`: at the limit, the eviction in `dismissIfAtLimit` first removes at
least one record. -/
theorem immediatelyShowToast_length_le (props : OverlayToasterProps) (s : ToasterState)
    (o : ToastOptions) (m : Nat)
    (hmax : props.maxToasts = some m) (hm : 1 ≤ m) (h : s.toasts.length ≤ m) :
    (immediatelyShowToast props s o).1.toasts.length ≤ m := by
  unfold immediatelyShowToast
  rw [hmax]
  dsimp only
  rw [if_pos (by omega : m ≠ 0)]
  unfold dismissIfAtLimit
  rw [hmax]
  by_cases hl : m = s.toasts.length
  · rw [if_pos (by rw [hl])]
    have hne : s.toasts ≠ [] := by
      intro h0
      rw [h0] at hl
      simp at hl
      omega
    cases hg : s.toasts.getLast? with
    | none => exact absurd (List.getLast?_eq_none_iff.mp hg) hne
    | some t =>
        unfold dismiss
        dsimp only
        simp only [List.length_cons]
        have ht : t ∈ s.toasts := List.mem_of_getLast?_eq_some hg
        have hlt : (s.toasts.filter (fun u => !(u.key == t.key))).length < s.toasts.length :=
          length_filter_lt_of_mem _ _ t ht (by simp)
        omega
  · rw [if_neg (fun hc => hl (Option.some_injective _ hc))]
    simp only [List.length_cons]
    omega

/-- An in-place update (`maybeUpdateExistingToast`) never changes the visible
count nor the scheduler flags. -/
theorem maybeUpdateExistingToast_shape (s : ToasterState) (o : ToastOptions)
    (key : Option String) :
    ((maybeUpdateExistingToast s o key).2).toasts.length = s.toasts.length ∧
    ((maybeUpdateExistingToast s o key).2).queue.isRunning = s.queue.isRunning := by
  unfold maybeUpdateExistingToast
  cases key with
  | none => exact ⟨rfl, rfl⟩
  | some k =>
      dsimp only
      by_cases hp : s.queue.toasts.any (fun t => t.key == k) = true
      · rw [if_pos hp]
        exact ⟨rfl, rfl⟩
      · rw [if_neg hp]
        by_cases hv : s.toasts.any (fun t => t.key == k) = true
        · rw [if_pos hv]
          exact ⟨List.length_map _ _, rfl⟩
        · rw [if_neg hv]
          exact ⟨rfl, rfl⟩

/-- A timer firing keeps the visible count within a configured limit. -/
theorem handleQueueTimeout_length_le (props : OverlayToasterProps) (s : ToasterState)
    (m : Nat) (hmax : props.maxToasts = some m) (hm : 1 ≤ m) (h : s.toasts.length ≤ m) :
    (handleQueueTimeout props s).1.toasts.length ≤ m := by
  obtain ⟨vis, ⟨armd, running, pend⟩, tid⟩ := s
  cases pend with
  | nil => exact h
  | cons t rest =>
      unfold handleQueueTimeout
      dsimp only
      exact immediatelyShowToast_length_le props ⟨vis, ⟨false, running, rest⟩, tid⟩ t m
        hmax hm h

/-- Every transition keeps the visible count within a configured limit
`m ≥ 1`. -/
theorem step_length_le (props : OverlayToasterProps) (m : Nat)
    (hmax : props.maxToasts = some m) (hm : 1 ≤ m) :
    ∀ s op, s.toasts.length ≤ m → (step props s op).1.toasts.length ≤ m := by
  intro s op h
  cases op with
  | «show» tp key =>
      show (show' props s tp key).1.toasts.length ≤ m
      cases key with
      | some k =>
          by_cases hp : s.queue.toasts.any (fun t => t.key == k) = true
          · rw [show'_update_pending props s tp k hp]
            exact h
          · have hp' : s.queue.toasts.any (fun t => t.key == k) = false :=
              Bool.eq_false_iff.mpr hp
            by_cases hv : s.toasts.any (fun t => t.key == k) = true
            · rw [show'_update_visible props s tp k hp' hv]
              simpa using h
            · have hv' : s.toasts.any (fun t => t.key == k) = false :=
                Bool.eq_false_iff.mpr hv
              cases hrun : s.queue.isRunning
              · rw [show'_new_keyed_idle props s tp k hp' hv' hrun]
                exact immediatelyShowToast_length_le props s _ m hmax hm h
              · rw [show'_new_keyed_running props s tp k hp' hv' hrun]
                exact h
      | none =>
          cases hrun : s.queue.isRunning
          · rw [show'_unkeyed_idle props s tp hrun]
            exact immediatelyShowToast_length_le props _ _ m hmax hm h
          · rw [show'_unkeyed_running props s tp hrun]
            exact h
  | dismiss k b => exact le_trans (List.length_filter_le _ _) h
  | clear => exact Nat.zero_le m
  | timerFire =>
      show (if s.queue.armed then handleQueueTimeout props s else (s, [])).1.toasts.length ≤ m
      cases harm : s.queue.armed
      · simpa using h
      · simpa using handleQueueTimeout_length_le props s m hmax hm h

/-- C1: for every sequence of operations — in particular `show` calls with
distinct keys and timer firings — on a controller configured with
maximum-visible-count `m` (necessarily `m ≥ 1`, enforced by `validateProps`),
the visible collection never holds more than `m` records. -/
theorem c1_visible_never_exceeds_max (props : OverlayToasterProps) (m : Nat)
    (hmax : props.maxToasts = some m) (hm : 1 ≤ m) (ops : List Op) :
    (run props initialState ops).toasts.length ≤ m :=
  run_preserves props (fun s => s.toasts.length ≤ m)
    (fun s op h => step_length_le props m hmax hm s op h) ops initialState
    (Nat.zero_le m)

/-- Witness for C1: limit 2, five distinct toasts shown with interleaved
releases. -/
theorem c1_witness :
    (OverlayToasterProps.mk (some 2)).maxToasts = some 2 ∧ 1 ≤ 2 ∧
    (run ⟨some 2⟩ initialState
      [.show ⟨"A", some 0⟩ none, .show ⟨"B", some 1⟩ none, .show ⟨"C", some 2⟩ none,
       .timerFire, .show ⟨"D", some 3⟩ none, .timerFire, .timerFire,
       .show ⟨"E", some 4⟩ none, .timerFire]).toasts.length ≤ 2 :=
  ⟨rfl, by decide,
    c1_visible_never_exceeds_max ⟨some 2⟩ 2 rfl (by decide)
      [.show ⟨"A", some 0⟩ none, .show ⟨"B", some 1⟩ none, .show ⟨"C", some 2⟩ none,
       .timerFire, .show ⟨"D", some 3⟩ none, .timerFire, .timerFire,
       .show ⟨"E", some 4⟩ none, .timerFire]⟩

/-! ### C3: show with a pending key replaces in place; the replacement is
eventually released -/

/-- Replacement by key is the identity on a list without that key. -/
theorem map_replace_of_no_key (l : List ToastOptions) (o : ToastOptions) (k : String)
    (h : ∀ t ∈ l, t.key ≠ k) : l.map (fun t => if t.key == k then o else t) = l := by
  induction l with
  | nil => rfl
  | cons a l ih =>
      have ha := h a (List.mem_cons_self a l)
      simp only [List.map_cons, ih (fun t ht => h t (List.mem_cons_of_mem a ht))]
      simp [ha]

/-- Releasing `pre.length + 1` pending records from a state whose pending
queue is `pre ++ opts :: post`, with the key of `opts` absent from `pre` and
from the visible list, ends with exactly one visible record of that key:
`opts` itself. -/
theorem run_release_filter (props : OverlayToasterProps) :
    ∀ (pre : List ToastOptions) (s : ToasterState) (opts : ToastOptions)
      (post : List ToastOptions) (k : String),
      s.queue.armed = true →
      s.queue.toasts = pre ++ opts :: post →
      opts.key = k →
      (∀ t ∈ pre, t.key ≠ k) →
      (∀ t ∈ s.toasts, t.key ≠ k) →
      ((run props s (List.replicate (pre.length + 1) .timerFire)).toasts.filter
          (fun t => t.key == k)) = [opts] := by
  intro pre
  induction pre with
  | nil =>
      intro s opts post k harmed hq hk hpre hvis
      simp only [List.length_nil, Nat.zero_add]
      rw [List.replicate_one, run_cons, run_nil]
      simp only [step, harmed, if_true]
      obtain ⟨-, -, -, -, -, l, hl, hsub⟩ :=
        handleQueueTimeout_head props s opts post (by simpa using hq)
      rw [hl, List.filter_cons]
      have hko : (opts.key == k) = true := by simp [hk]
      rw [hko]
      simp only [if_true]
      have : l.filter (fun t => t.key == k) = [] := by
        apply List.filter_eq_nil_iff.mpr
        intro t ht
        simp [hvis t (hsub.subset ht)]
      rw [this]
  | cons p pre ih =>
      intro s opts post k harmed hq hk hpre hvis
      have hrep : List.replicate ((p :: pre).length + 1) Op.timerFire =
          Op.timerFire :: List.replicate (pre.length + 1) Op.timerFire := by
        simp only [List.length_cons]
        rw [List.replicate_succ]
      rw [hrep, run_cons]
      simp only [step, harmed, if_true]
      obtain ⟨hhead, hqt, harm', hrun', hid, l, hl, hsub⟩ :=
        handleQueueTimeout_head props s p (pre ++ opts :: post) (by simpa using hq)
      apply ih (handleQueueTimeout props s).1 opts post k harm' hqt hk
        (fun t ht => hpre t (List.mem_cons_of_mem p ht))
      intro t ht
      rw [hl] at ht
      rcases List.mem_cons.mp ht with rfl | ht'
      · exact hpre t (List.mem_cons_self t pre)
      · exact hvis t (hsub.subset ht')

/-- C3: `show` with a key matching an existing pending record replaces that
record's content in place — same queue position, visible list untouched, no
callback fired, scheduling not re-triggered (both scheduler flags unchanged)
— returns the same key, and once the scheduler has released up to and
including that queue position, exactly one visible record carries the key,
holding the second call's content. -/
theorem c3_show_updates_pending_in_place (props : OverlayToasterProps) (s : ToasterState)
    (tp : ToastProps) (k : String) (pre post : List ToastOptions) (old : ToastOptions)
    (hq : s.queue.toasts = pre ++ old :: post)
    (hold : old.key = k)
    (hpre : ∀ t ∈ pre, t.key ≠ k)
    (hpost : ∀ t ∈ post, t.key ≠ k)
    (hvis : ∀ t ∈ s.toasts, t.key ≠ k)
    (harmed : s.queue.armed = true) :
    (show' props s tp (some k)).2.2 = k ∧
    (show' props s tp (some k)).2.1 = [] ∧
    (show' props s tp (some k)).1.queue.toasts =
      pre ++ ⟨tp.message, tp.onDismiss, k⟩ :: post ∧
    (show' props s tp (some k)).1.toasts = s.toasts ∧
    (show' props s tp (some k)).1.queue.isRunning = s.queue.isRunning ∧
    (show' props s tp (some k)).1.queue.armed = s.queue.armed ∧
    ((run props (show' props s tp (some k)).1
        (List.replicate (pre.length + 1) .timerFire)).toasts.filter
          (fun t => t.key == k)) = [⟨tp.message, tp.onDismiss, k⟩] := by
  have hpendany : s.queue.toasts.any (fun t => t.key == k) = true := by
    rw [hq]
    simp only [List.any_eq_true]
    exact ⟨old, by simp, by simp [hold]⟩
  rw [show'_update_pending props s tp k hpendany]
  have hmap : s.queue.toasts.map
      (fun t => if t.key == k then (⟨tp.message, tp.onDismiss, k⟩ : ToastOptions) else t) =
      pre ++ ⟨tp.message, tp.onDismiss, k⟩ :: post := by
    rw [hq, List.map_append, List.map_cons]
    rw [map_replace_of_no_key pre _ k hpre]
    have hko : (old.key == k) = true := by simp [hold]
    rw [hko]
    simp only [if_true]
    rw [map_replace_of_no_key post _ k hpost]
  refine ⟨rfl, rfl, hmap, rfl, rfl, rfl, ?_⟩
  exact run_release_filter props pre
    { s with queue := { s.queue with toasts := s.queue.toasts.map (fun t => if t.key == k then ⟨tp.message, tp.onDismiss, k⟩ else t) } }
    ⟨tp.message, tp.onDismiss, k⟩ post k harmed hmap rfl hpre hvis

/-- Witness for C3 at a concrete state: key `"k"` is pending (as `sampleB`)
in `sampleState` and is replaced by content `"Y"`. -/
theorem c3_witness :
    sampleState.queue.toasts = [] ++ sampleB :: [] ∧
    ((show' ⟨none⟩ sampleState ⟨"Y", some 5⟩ (some "k")).2.2 = "k" ∧
      (show' ⟨none⟩ sampleState ⟨"Y", some 5⟩ (some "k")).2.1 = [] ∧
      (show' ⟨none⟩ sampleState ⟨"Y", some 5⟩ (some "k")).1.queue.toasts =
        [] ++ (⟨"Y", some 5, "k"⟩ : ToastOptions) :: [] ∧
      (show' ⟨none⟩ sampleState ⟨"Y", some 5⟩ (some "k")).1.toasts = sampleState.toasts ∧
      (show' ⟨none⟩ sampleState ⟨"Y", some 5⟩ (some "k")).1.queue.isRunning =
        sampleState.queue.isRunning ∧
      (show' ⟨none⟩ sampleState ⟨"Y", some 5⟩ (some "k")).1.queue.armed =
        sampleState.queue.armed ∧
      ((run ⟨none⟩ (show' ⟨none⟩ sampleState ⟨"Y", some 5⟩ (some "k")).1
          (List.replicate (List.length ([] : List ToastOptions) + 1) .timerFire)).toasts.filter
            (fun t => t.key == "k")) = [⟨"Y", some 5, "k"⟩]) :=
  ⟨rfl, c3_show_updates_pending_in_place ⟨none⟩ sampleState ⟨"Y", some 5⟩ "k" [] [] sampleB
    rfl rfl (by decide) (by decide) (by decide) rfl⟩

/-! ### C9: identifier uniqueness (auxiliary number-representation facts) -/

theorem toDigitsCore_eq_digits (f : Nat) :
    ∀ (n : Nat) (l : List Char), 0 < n → n < 10 ^ f →
      Nat.toDigitsCore 10 f n l = ((Nat.digits 10 n).map Nat.digitChar).reverse ++ l := by
  induction f with
  | zero =>
      intro n l hn hf
      simp at hf
      omega
  | succ f ih =>
      intro n l hn hf
      by_cases h : n / 10 = 0
      · have hn10 : n < 10 := by omega
        have hdig : Nat.digits 10 n = [n] := by
          rw [Nat.digits_def' (by norm_num : 1 < 10) hn, Nat.mod_eq_of_lt hn10, h]
          simp
        simp [Nat.toDigitsCore, h, hdig, Nat.mod_eq_of_lt hn10]
      · have h1 : 0 < n / 10 := Nat.pos_of_ne_zero h
        have h2 : n / 10 < 10 ^ f := by
          rw [Nat.pow_succ] at hf
          exact (Nat.div_lt_iff_lt_mul (by norm_num)).mpr hf
        have hdig : Nat.digits 10 n = n % 10 :: Nat.digits 10 (n / 10) :=
          Nat.digits_def' (by norm_num : 1 < 10) hn
        simp only [Nat.toDigitsCore, h, if_false]
        rw [ih (n / 10) (Nat.digitChar (n % 10) :: l) h1 h2, hdig]
        simp

theorem asString_inj (l1 l2 : List Char) (h : l1.asString = l2.asString) : l1 = l2 :=
  congrArg String.data h

theorem repr_pos_eq (n : Nat) (hn : 0 < n) :
    Nat.repr n = (((Nat.digits 10 n).map Nat.digitChar).reverse).asString := by
  unfold Nat.repr Nat.toDigits
  have hb : n < 10 ^ (n + 1) := by
    have h1 : n < 2 ^ n := Nat.lt_two_pow n
    have h2 : 2 ^ n ≤ 10 ^ n := Nat.pow_le_pow_left (by norm_num) n
    have h3 : (10 : Nat) ^ n ≤ 10 ^ (n + 1) := Nat.pow_le_pow_right (by norm_num) (Nat.le_succ n)
    omega
  rw [toDigitsCore_eq_digits (n + 1) n [] hn hb, List.append_nil]

theorem digitChar_inj10 : ∀ a < 10, ∀ b < 10, Nat.digitChar a = Nat.digitChar b → a = b := by
  decide

theorem map_digitChar_inj : ∀ (l1 l2 : List Nat), (∀ x ∈ l1, x < 10) → (∀ x ∈ l2, x < 10) →
    l1.map Nat.digitChar = l2.map Nat.digitChar → l1 = l2 := by
  intro l1
  induction l1 with
  | nil =>
      intro l2 h1 h2 heq
      cases l2 with
      | nil => rfl
      | cons b t => simp at heq
  | cons a t1 ih =>
      intro l2 h1 h2 heq
      cases l2 with
      | nil => simp at heq
      | cons b t2 =>
          simp only [List.map_cons, List.cons.injEq] at heq
          have hab : a = b :=
            digitChar_inj10 a (h1 a (List.mem_cons_self a t1)) b
              (h2 b (List.mem_cons_self b t2)) heq.1
          have ht : t1 = t2 := ih t2 (fun x hx => h1 x (List.mem_cons_of_mem a hx))
            (fun x hx => h2 x (List.mem_cons_of_mem b hx)) heq.2
          rw [hab, ht]

theorem repr_pos_ne_zero_str (n : Nat) (hn : 0 < n) : Nat.repr n ≠ "0" := by
  intro h
  rw [repr_pos_eq n hn] at h
  have hd : ((Nat.digits 10 n).map Nat.digitChar).reverse = ['0'] := congrArg String.data h
  have hmap : (Nat.digits 10 n).map Nat.digitChar = ['0'] := by
    have := congrArg List.reverse hd
    simpa using this
  cases hdg : Nat.digits 10 n with
  | nil => rw [hdg] at hmap; simp at hmap
  | cons a t =>
      rw [hdg] at hmap
      simp only [List.map_cons, List.cons.injEq] at hmap
      have ht : t = [] := by
        have := hmap.2
        cases t with
        | nil => rfl
        | cons x y => simp at this
      have ha : a = 0 := by
        apply digitChar_inj10 a ?_ 0 (by norm_num) (by rw [hmap.1]; rfl)
        have : a ∈ Nat.digits 10 n := by rw [hdg]; exact List.mem_cons_self a t
        exact Nat.digits_lt_base (by norm_num) this
      have hlast := Nat.getLast_digit_ne_zero 10 (Nat.pos_iff_ne_zero.mp hn)
      have hne : Nat.digits 10 n ≠ [] := by rw [hdg]; simp
      have hq : (Nat.digits 10 n).getLast? = some 0 := by rw [hdg, ht, ha]; rfl
      rw [List.getLast?_eq_getLast _ hne] at hq
      have := Option.some_injective _ hq
      exact hlast (by rw [this])

theorem nat_repr_inj (m n : Nat) (h : Nat.repr m = Nat.repr n) : m = n := by
  rcases Nat.eq_zero_or_pos m with rfl | hm
  · rcases Nat.eq_zero_or_pos n with rfl | hn
    · rfl
    · exact absurd h.symm (repr_pos_ne_zero_str n hn)
  · rcases Nat.eq_zero_or_pos n with rfl | hn
    · exact absurd h (repr_pos_ne_zero_str m hm)
    · rw [repr_pos_eq m hm, repr_pos_eq n hn] at h
      have hd := asString_inj _ _ h
      have hrev := List.reverse_injective hd
      have hmap := map_digitChar_inj _ _
        (fun x hx => Nat.digits_lt_base (by norm_num) hx)
        (fun x hx => Nat.digits_lt_base (by norm_num) hx) hrev
      have := congrArg (Nat.ofDigits 10) hmap
      rw [Nat.ofDigits_digits, Nat.ofDigits_digits] at this
      exact_mod_cast this

/-- The auto-generated keys are pairwise distinct. -/
theorem autoKey_inj (m n : Nat) (h : autoKey m = autoKey n) : m = n := by
  unfold autoKey at h
  have hd := congrArg String.data h
  simp only [String.data_append] at hd
  exact nat_repr_inj m n (String.ext (List.append_cancel_left hd))

/-- A key absent (per `any`) from a collection is not among its mapped keys. -/
theorem key_not_mem_of_any_false (l : List ToastOptions) (k : String)
    (h : l.any (fun t => t.key == k) = false) : k ∉ l.map (fun t => t.key) := by
  intro hmem
  rcases List.mem_map.mp hmem with ⟨t, ht, hk⟩
  rw [List.any_eq_false] at h
  exact h t ht (by simp [hk])

/-- Inserting a fresh key in the middle of a duplicate-free key list whose
right part may have shrunk keeps it duplicate-free. -/
theorem nodup_insert_fresh (pend vis vis' : List String) (k : String)
    (hsub : vis'.Sublist vis) (hnd : (pend ++ vis).Nodup) (hk : k ∉ pend ++ vis) :
    (pend ++ k :: vis').Nodup := by
  rw [List.nodup_middle, List.nodup_cons]
  constructor
  · intro hmem
    apply hk
    rcases List.mem_append.mp hmem with hmem | hmem
    · exact List.mem_append.mpr (Or.inl hmem)
    · exact List.mem_append.mpr (Or.inr (hsub.subset hmem))
  · exact hnd.sublist (List.Sublist.append_left hsub pend)

/-- The key-uniqueness invariant together with the counter bound needed to
propagate it. -/
def KeysInvariant (s : ToasterState) : Prop :=
  (stateKeys s).Nodup ∧ AutoKeysBounded s

/-- Every transition whose caller-supplied key (if any) avoids the
auto-generated namespace preserves the key-uniqueness invariant. -/
theorem step_keys_invariant (props : OverlayToasterProps) (s : ToasterState) (op : Op)
    (hop : ∀ tp k, op = Op.show tp (some k) → ∀ n, k ≠ autoKey n)
    (h : KeysInvariant s) : KeysInvariant (step props s op).1 := by
  obtain ⟨hnd, hbd⟩ := h
  cases op with
  | «show» tp key =>
      show KeysInvariant (show' props s tp key).1
      cases key with
      | some k =>
          have hk : ∀ n, k ≠ autoKey n := fun n => hop tp k rfl n
          by_cases hp : s.queue.toasts.any (fun t => t.key == k) = true
          · rw [show'_update_pending props s tp k hp]
            have heq : stateKeys { s with queue := { s.queue with toasts := s.queue.toasts.map (fun t => if t.key == k then ⟨tp.message, tp.onDismiss, k⟩ else t) } } = stateKeys s := by
              simp only [stateKeys]
              rw [map_key_replace s.queue.toasts _ k rfl]
            exact ⟨heq ▸ hnd, fun n hm => hbd n (heq ▸ hm)⟩
          · have hp' : s.queue.toasts.any (fun t => t.key == k) = false :=
              Bool.eq_false_iff.mpr hp
            by_cases hv : s.toasts.any (fun t => t.key == k) = true
            · rw [show'_update_visible props s tp k hp' hv]
              have heq : stateKeys { s with toasts := s.toasts.map (fun t => if t.key == k then ⟨tp.message, tp.onDismiss, k⟩ else t) } = stateKeys s := by
                simp only [stateKeys]
                rw [map_key_replace s.toasts _ k rfl]
              exact ⟨heq ▸ hnd, fun n hm => hbd n (heq ▸ hm)⟩
            · have hv' : s.toasts.any (fun t => t.key == k) = false :=
                Bool.eq_false_iff.mpr hv
              have hknotin : k ∉ stateKeys s := by
                simp only [stateKeys]
                intro hmem
                rcases List.mem_append.mp hmem with hmem | hmem
                · exact key_not_mem_of_any_false _ k hp' hmem
                · exact key_not_mem_of_any_false _ k hv' hmem
              cases hrun : s.queue.isRunning
              · rw [show'_new_keyed_idle props s tp k hp' hv' hrun]
                obtain ⟨hqeq, hid, l, hl, hsub⟩ :=
                  immediatelyShowToast_shape props s ⟨tp.message, tp.onDismiss, k⟩
                have hkeys : stateKeys (startQueueTimeout (immediatelyShowToast props s ⟨tp.message, tp.onDismiss, k⟩).1) = s.queue.toasts.map (fun t => t.key) ++ (k :: l.map (fun t => t.key)) := by
                  simp only [stateKeys, startQueueTimeout, hl, hqeq]
                  rfl
                constructor
                · rw [hkeys]
                  exact nodup_insert_fresh _ _ _ k (hsub.map _) hnd hknotin
                · intro n hm
                  rw [hkeys] at hm
                  have hid' : (startQueueTimeout (immediatelyShowToast props s ⟨tp.message, tp.onDismiss, k⟩).1).toastId = s.toastId := hid
                  rw [hid']
                  rcases List.mem_append.mp hm with hm | hm
                  · exact hbd n (List.mem_append.mpr (Or.inl hm))
                  · rcases List.mem_cons.mp hm with hm | hm
                    · exact absurd hm.symm (hk n)
                    · rcases List.mem_map.mp hm with ⟨t, ht, hteq⟩
                      exact hbd n (List.mem_append.mpr (Or.inr
                        (List.mem_map.mpr ⟨t, hsub.subset ht, hteq⟩)))
              · rw [show'_new_keyed_running props s tp k hp' hv' hrun]
                have hkeys : stateKeys { s with queue := { s.queue with toasts := s.queue.toasts ++ [⟨tp.message, tp.onDismiss, k⟩] } } = s.queue.toasts.map (fun t => t.key) ++ (k :: s.toasts.map (fun t => t.key)) := by
                  simp only [stateKeys, List.map_append]
                  rw [List.append_assoc]
                  rfl
                constructor
                · rw [hkeys]
                  exact nodup_insert_fresh _ _ _ k (List.Sublist.refl _) hnd hknotin
                · intro n hm
                  rw [hkeys] at hm
                  rcases List.mem_append.mp hm with hm | hm
                  · exact hbd n (List.mem_append.mpr (Or.inl hm))
                  · rcases List.mem_cons.mp hm with hm | hm
                    · exact absurd hm.symm (hk n)
                    · exact hbd n (List.mem_append.mpr (Or.inr hm))
      | none =>
          have hfresh : autoKey s.toastId ∉ stateKeys s := fun hm =>
            absurd (hbd s.toastId hm) (lt_irrefl _)
          cases hrun : s.queue.isRunning
          · rw [show'_unkeyed_idle props s tp hrun]
            obtain ⟨hqeq, hid, l, hl, hsub⟩ :=
              immediatelyShowToast_shape props { s with toastId := s.toastId + 1 }
                ⟨tp.message, tp.onDismiss, autoKey s.toastId⟩
            have hkeys : stateKeys (startQueueTimeout (immediatelyShowToast props { s with toastId := s.toastId + 1 } ⟨tp.message, tp.onDismiss, autoKey s.toastId⟩).1) = s.queue.toasts.map (fun t => t.key) ++ (autoKey s.toastId :: l.map (fun t => t.key)) := by
              simp only [stateKeys, startQueueTimeout, hl, hqeq]
              rfl
            constructor
            · rw [hkeys]
              exact nodup_insert_fresh _ _ _ _ (hsub.map _) hnd hfresh
            · intro n hm
              rw [hkeys] at hm
              have hid' : (startQueueTimeout (immediatelyShowToast props { s with toastId := s.toastId + 1 } ⟨tp.message, tp.onDismiss, autoKey s.toastId⟩).1).toastId = s.toastId + 1 := hid
              rw [hid']
              rcases List.mem_append.mp hm with hm | hm
              · exact Nat.lt_succ_of_lt (hbd n (List.mem_append.mpr (Or.inl hm)))
              · rcases List.mem_cons.mp hm with hm | hm
                · rw [autoKey_inj n s.toastId hm]
                  exact Nat.lt_succ_self _
                · rcases List.mem_map.mp hm with ⟨t, ht, hteq⟩
                  exact Nat.lt_succ_of_lt (hbd n (List.mem_append.mpr (Or.inr
                    (List.mem_map.mpr ⟨t, hsub.subset ht, hteq⟩))))
          · rw [show'_unkeyed_running props s tp hrun]
            have hkeys : stateKeys { s with queue := { s.queue with toasts := s.queue.toasts ++ [⟨tp.message, tp.onDismiss, autoKey s.toastId⟩] }, toastId := s.toastId + 1 } = s.queue.toasts.map (fun t => t.key) ++ (autoKey s.toastId :: s.toasts.map (fun t => t.key)) := by
              simp only [stateKeys, List.map_append]
              rw [List.append_assoc]
              rfl
            constructor
            · rw [hkeys]
              exact nodup_insert_fresh _ _ _ _ (List.Sublist.refl _) hnd hfresh
            · intro n hm
              rw [hkeys] at hm
              rcases List.mem_append.mp hm with hm | hm
              · exact Nat.lt_succ_of_lt (hbd n (List.mem_append.mpr (Or.inl hm)))
              · rcases List.mem_cons.mp hm with hm | hm
                · rw [autoKey_inj n s.toastId hm]
                  exact Nat.lt_succ_self _
                · exact Nat.lt_succ_of_lt (hbd n (List.mem_append.mpr (Or.inr hm)))
  | dismiss k b =>
      show KeysInvariant (dismiss s k b).1
      have hsub : stateKeys (dismiss s k b).1 |>.Sublist (stateKeys s) := by
        simp only [stateKeys, dismiss]
        exact List.Sublist.append_left ((List.filter_sublist _).map _) _
      exact ⟨hnd.sublist hsub, fun n hm => hbd n (hsub.subset hm)⟩
  | clear =>
      show KeysInvariant (clear s).1
      constructor
      · simp [stateKeys, clear]
      · intro n hm
        simp [stateKeys, clear] at hm
  | timerFire =>
      show KeysInvariant (if s.queue.armed then handleQueueTimeout props s else (s, [])).1
      cases harm : s.queue.armed
      · simp only [Bool.false_eq_true, if_false]
        exact ⟨hnd, hbd⟩
      · simp only [if_true]
        cases hqt : s.queue.toasts with
        | nil =>
            obtain ⟨vis, ⟨armd, running, pend⟩, tid⟩ := s
            simp only at hqt
            subst hqt
            exact ⟨hnd, hbd⟩
        | cons t rest =>
            obtain ⟨hhead, hqrest, -, -, hid, l, hl, hsub⟩ :=
              handleQueueTimeout_head props s t rest hqt
            have hold : stateKeys s = t.key :: (rest.map (fun u => u.key) ++ s.toasts.map (fun u => u.key)) := by
              simp only [stateKeys, hqt]
              rfl
            have hnd' : (rest.map (fun u => u.key) ++ s.toasts.map (fun u => u.key)).Nodup := by
              rw [hold] at hnd
              exact (List.nodup_cons.mp hnd).2
            have ht : t.key ∉ rest.map (fun u => u.key) ++ s.toasts.map (fun u => u.key) := by
              rw [hold] at hnd
              exact (List.nodup_cons.mp hnd).1
            have hkeys : stateKeys (handleQueueTimeout props s).1 = rest.map (fun u => u.key) ++ (t.key :: l.map (fun u => u.key)) := by
              simp only [stateKeys]
              rw [hqrest, hl]
              rfl
            constructor
            · rw [hkeys]
              exact nodup_insert_fresh _ _ _ _ (hsub.map _) hnd' ht
            · intro n hm
              rw [hkeys] at hm
              have hid' : (handleQueueTimeout props s).1.toastId = s.toastId := hid
              rw [hid']
              rcases List.mem_append.mp hm with hm | hm
              · apply hbd n
                rw [hold]
                exact List.mem_cons_of_mem _ (List.mem_append.mpr (Or.inl hm))
              · rcases List.mem_cons.mp hm with hm | hm
                · apply hbd n
                  rw [hold, hm]
                  exact List.mem_cons_self _ _
                · rcases List.mem_map.mp hm with ⟨u, hu, hueq⟩
                  apply hbd n
                  rw [hold]
                  exact List.mem_cons_of_mem _ (List.mem_append.mpr (Or.inr
                    (List.mem_map.mpr ⟨u, hsub.subset hu, hueq⟩)))

/-- The key-uniqueness invariant is preserved along every trace whose
caller-supplied keys avoid the auto-generated namespace. -/
theorem run_keys_invariant (props : OverlayToasterProps) :
    ∀ ops s, CallerKeysSafe ops → KeysInvariant s → KeysInvariant (run props s ops) := by
  intro ops
  induction ops with
  | nil => intro s _ h; exact h
  | cons op ops ih =>
      intro s hsafe h
      rw [run_cons]
      refine ih _ ?_ (step_keys_invariant props s op ?_ h)
      · intro tp k hmem n
        exact hsafe tp k (List.mem_cons_of_mem op hmem) n
      · intro tp k heq n
        refine hsafe tp k ?_ n
        rw [← heq]
        exact List.mem_cons_self op ops

/-- C9 counterexample: caller-supplied keys can collide with the
auto-generated namespace.  `show` with caller key `"toast-0"` (immediately
visible), then an unkeyed `show` — the latter allocates the auto key
`toast-0` and, because the dedup check runs only on the raw caller `key`
argument (which is absent), queues a second record with the same identifier:
`"toast-0"` is now in both collections at once, so identifiers are not
unique as claimed. -/
theorem c9_counterexample :
    ((run ⟨none⟩ initialState
        [.show ⟨"A", some 0⟩ (some "toast-0"), .show ⟨"B", some 1⟩ none]).toasts.map
          (fun t => t.key) = ["toast-0"]) ∧
    ((run ⟨none⟩ initialState
        [.show ⟨"A", some 0⟩ (some "toast-0"), .show ⟨"B", some 1⟩ none]).queue.toasts.map
          (fun t => t.key) = ["toast-0"]) ∧
    ¬ KeysUnique (run ⟨none⟩ initialState
        [.show ⟨"A", some 0⟩ (some "toast-0"), .show ⟨"B", some 1⟩ none]) := by
  refine ⟨rfl, rfl, ?_⟩
  intro h
  have h' : (stateKeys (run ⟨none⟩ initialState
      [.show ⟨"A", some 0⟩ (some "toast-0"), .show ⟨"B", some 1⟩ none])).Nodup := h
  exact absurd h' (by decide)

/-- C9 amended: for every sequence of show, dismiss, clear and timer-firing
operations whose caller-supplied keys never collide with the auto-generated
`toast-${n}` namespace, identifiers are unique — each identifier appears in
at most one of the pending and visible collections, and at most once within
each (the combined key list is duplicate-free). -/
theorem c9_identifier_uniqueness (props : OverlayToasterProps) (ops : List Op)
    (hsafe : CallerKeysSafe ops) :
    KeysUnique (run props initialState ops) :=
  (run_keys_invariant props ops initialState hsafe
    ⟨List.nodup_nil, fun _ hm => absurd hm (List.not_mem_nil _)⟩).1

/-- Witness for the amended C9 on a concrete mixed trace. -/
theorem c9_witness :
    CallerKeysSafe [.show ⟨"A", some 0⟩ none, .show ⟨"B", some 1⟩ none, .timerFire,
      .show ⟨"C", some 2⟩ none] ∧
    KeysUnique (run ⟨none⟩ initialState [.show ⟨"A", some 0⟩ none, .show ⟨"B", some 1⟩ none,
      .timerFire, .show ⟨"C", some 2⟩ none]) :=
  ⟨by intro tp k hmem; simp at hmem,
    c9_identifier_uniqueness ⟨none⟩
      [.show ⟨"A", some 0⟩ none, .show ⟨"B", some 1⟩ none, .timerFire,
        .show ⟨"C", some 2⟩ none]
      (by intro tp k hmem; simp at hmem)⟩

/-- Witness for the amended C4 at a concrete state. -/
theorem c4_witness :
    sampleState.queue.toasts = sampleB :: [] ∧
    ((dismiss sampleState "k" false).1.toasts =
        sampleState.toasts.filter (fun u => !(u.key == "k")) ∧
      (dismiss sampleState "k" false).1.queue = sampleState.queue ∧
      (dismiss sampleState "k" false).1.toastId = sampleState.toastId ∧
      ((dismiss sampleState "k" false).1.queue.armed = true →
        (step ⟨none⟩ (dismiss sampleState "k" false).1 .timerFire).1.toasts.head? =
          some sampleB)) :=
  ⟨rfl, c4_dismiss_only_affects_visible ⟨none⟩ sampleState "k" false sampleB [] rfl⟩

end OverlayToaster
